import Mathlib

/-!
Verification of the store-monitoring uptime engine
(`backend/services/report_runner.py`, `backend/main.py`).

Time instants are modelled as rationals (seconds on the UTC timeline);
statuses and store ids are strings.  Fallible library calls (timezone
lookup) are modelled with `Option`.  Each definition mirrors one Python
function and is named after it where Lean allows.
-/

namespace StoreMonitoring

/-- Model of `TimeInterval` (report_runner.py, lines 24-33): a half-open
pair of UTC instants.  The Python field `end` is spelled `stop` here
because `end` is a Lean keyword. -/
structure TimeInterval where
  start : ℚ
  stop : ℚ
deriving Repr, DecidableEq

/-- `TimeInterval.overlap_seconds` (lines 29-33):
`max(0, min(a.end, b.end) - max(a.start, b.start))`. -/
def TimeInterval.overlap_seconds (a b : TimeInterval) : ℚ :=
  max 0 (min a.stop b.stop - max a.start b.start)

/-- Duration of an interval, `(it.end - it.start).total_seconds()`
(line 197). -/
def TimeInterval.duration (iv : TimeInterval) : ℚ :=
  iv.stop - iv.start

/-- A status interval as the code's triple `(start, end, status)`. -/
abbrev StatusInterval := ℚ × ℚ × String

/-- The midpoint list of `_build_status_intervals_for_window`
(lines 84-86): `mids[i] = p[i].t + (p[i+1].t - p[i].t)/2` for each
adjacent pair of polls. -/
def mids : List (ℚ × String) → List ℚ
  | p1 :: p2 :: rest => (p1.1 + (p2.1 - p1.1) / 2) :: mids (p2 :: rest)
  | _ => []

/-- Zips a start list, an end list and a poll list into the triples
built by the loop at lines 88-92 (`(start, end, polls[i][1])`). -/
def zip3i : List ℚ → List ℚ → List (ℚ × String) → List StatusInterval
  | s :: ss, e :: es, p :: ps => (s, e, p.2) :: zip3i ss es ps
  | _, _, _ => []

/-- The clipping pass of `_build_status_intervals_for_window`
(lines 94-103): clamp to `[window_start - margin, window_end + margin]`
and keep only intervals that stay non-empty. -/
def clipIntervals (window_start window_end margin : ℚ)
    (l : List StatusInterval) : List StatusInterval :=
  l.filterMap (fun iv =>
    let s2 := max iv.1 (window_start - margin)
    let e2 := min iv.2.1 (window_end + margin)
    if s2 < e2 then some (s2, e2, iv.2.2) else none)

/-- The unclipped interval rows of
`_build_status_intervals_for_window` (lines 88-92).  For poll `i`,
`start = mids[i-1] if i > 0 else t0 - margin` and
`end = mids[i] if i < n-1 else t_last + margin`, so the start column is
`(t0 - margin) :: mids` and the end column is
`mids ++ [t_last + margin]`. -/
def raw_status_intervals (polls : List (ℚ × String)) (margin : ℚ) :
    List StatusInterval :=
  match polls with
  | [] => []
  | p :: rest =>
    let ms := mids (p :: rest)
    let tlast := ((p :: rest).getLast (by simp)).1
    zip3i ((p.1 - margin) :: ms) (ms ++ [tlast + margin]) (p :: rest)

/-- `_build_status_intervals_for_window` (lines 72-103): empty input
yields `[]` (line 80); otherwise the midpoint rows are built and
clipped. -/
def build_status_intervals_for_window (polls : List (ℚ × String))
    (window_start window_end : ℚ) (margin : ℚ) : List StatusInterval :=
  match polls with
  | [] => []
  | _ :: _ =>
    clipIntervals window_start window_end margin
      (raw_status_intervals polls margin)

/-- The merge loop of `_get_business_intervals_for_window`
(lines 156-162): absorb the next interval into the running one when its
start is at or before the running end, taking the max of the ends;
otherwise emit the running interval and continue from the next. -/
def merge_aux (cur : TimeInterval) : List TimeInterval → List TimeInterval
  | [] => [cur]
  | it :: rest =>
    if it.start ≤ cur.stop then merge_aux ⟨cur.start, max cur.stop it.stop⟩ rest
    else cur :: merge_aux it rest

/-- Union-merge of a start-ordered interval list (lines 153-163 of
`_get_business_intervals_for_window`, `merged` accumulation). -/
def merge_sorted : List TimeInterval → List TimeInterval
  | [] => []
  | first :: rest => merge_aux first rest

/-- Python's `str.lower()` on the status strings (ASCII case folding,
character by character). -/
def str_lower (s : String) : String := ⟨s.data.map Char.toLower⟩

/-- One addend of the uptime accumulation (lines 205-211): the overlap
is skipped when non-positive, and counted only when the lowercased
status is `active` (`s_status.lower() == "active"`, line 210). -/
def contrib (s : StatusInterval) (b : TimeInterval) : ℚ :=
  let ov := TimeInterval.overlap_seconds ⟨s.1, s.2.1⟩ b
  if ov ≤ 0 then 0
  else if str_lower s.2.2 = "active" then ov else 0

/-- The nested loops of `_compute` (lines 204-211): for each business
interval, for each status interval, accumulate `contrib`. -/
def uptimeSeconds (status_intervals : List StatusInterval)
    (biz_intervals : List TimeInterval) : ℚ :=
  (biz_intervals.map (fun b => (status_intervals.map (fun s => contrib s b)).sum)).sum

/-- The inner `_compute` of `compute_uptime_for_store_internal`
(lines 196-213): returns `(uptime_seconds, downtime_seconds)` for one
window's business intervals. -/
def compute_window (status_intervals : List StatusInterval)
    (biz_intervals : List TimeInterval) : ℚ × ℚ :=
  let total_business_seconds := (biz_intervals.map TimeInterval.duration).sum
  if total_business_seconds ≤ 0 then (0, 0)
  else if status_intervals = [] then (0, total_business_seconds)
  else
    let uptime_seconds := uptimeSeconds status_intervals biz_intervals
    (max 0 uptime_seconds, max 0 (total_business_seconds - uptime_seconds))

/-- Default timezone string (report_runner.py, line 22). -/
def DEFAULT_TZ : String := "America/Chicago"

/-- A naive local datetime: a local calendar day number and a
time-of-day in seconds (models `datetime.combine(date, time)`). -/
structure LocalDT where
  day : ℤ
  tod : ℚ
deriving Repr, DecidableEq

/-- Naive datetime comparison, lexicographic on (day, time of day);
models `e_local <= s_local` at line 139. -/
def LocalDT.leB (a b : LocalDT) : Bool :=
  a.day < b.day || (a.day == b.day && a.tod ≤ b.tod)

/-- Model of a `ZoneInfo` object: how a UTC instant reads as a local
calendar datetime (`astimezone(tz)`, lines 126-127), and how a naive
local datetime converts to UTC (`replace(tzinfo=tz).astimezone(UTC)`,
lines 142-145). -/
structure Zone where
  toLocal : ℚ → LocalDT
  toUTC : LocalDT → ℚ

/-- A `business_hours` row for one store (models.py, lines 20-30):
day of week (0 = Monday), local start and end times of day. -/
structure BusinessHour where
  day_of_week : ℤ
  start_time_local : ℚ
  end_time_local : ℚ
deriving Repr, DecidableEq

/-- `date.weekday()` on day numbers: day 0 is taken to be a Monday. -/
def weekday (d : ℤ) : ℤ := d % 7

/-- The zone-resolution step of `_get_business_intervals_for_window`
(lines 112-116).  `zoneDB` models the tzdata database behind the
`ZoneInfo` constructor (`none` means the constructor raises);
`chicago` models `ZoneInfo(DEFAULT_TZ)`, the zone built by the
`except` arm at line 116.  A falsy (`None` or empty) `tz_str` is
replaced by the default name before lookup (line 112). -/
def resolve_zone (zoneDB : String → Option Zone) (chicago : Zone)
    (tz_str : Option String) : Zone :=
  let tzname := match tz_str with
    | none => DEFAULT_TZ
    | some s => if s = "" then DEFAULT_TZ else s
  match zoneDB tzname with
  | some z => z
  | none => chicago

/-- The expansion body of `_get_business_intervals_for_window`
(lines 118-163), for an already-resolved zone.  With no schedule rows
the store is open for the whole window (line 120).  Otherwise each
local date from one day before the window's local start date to one
day after its local end date contributes its schedule rows, overnight
rows (`end <= start`) are pushed to the next local day, each local
span is converted to UTC, intersected with the window and kept if
non-empty, and the results are sorted by start and union-merged. -/
def expand_business_hours (tz : Zone) (bh_rows : List BusinessHour)
    (window_start_utc window_end_utc : ℚ) : List TimeInterval :=
  if bh_rows = [] then [⟨window_start_utc, window_end_utc⟩]
  else
    let local_start := tz.toLocal window_start_utc
    let local_end := tz.toLocal window_end_utc
    let start_date := local_start.day - 1
    let end_date := local_end.day + 1
    let days := (List.range (end_date - start_date + 1).toNat).map
      (fun k => start_date + (k : ℤ))
    let biz_intervals := days.flatMap (fun d =>
      (bh_rows.filter (fun bh => bh.day_of_week == weekday d)).filterMap (fun bh =>
        let s_local : LocalDT := ⟨d, bh.start_time_local⟩
        let e_local : LocalDT :=
          if LocalDT.leB ⟨d, bh.end_time_local⟩ s_local then ⟨d + 1, bh.end_time_local⟩
          else ⟨d, bh.end_time_local⟩
        let s_utc := tz.toUTC s_local
        let e_utc := tz.toUTC e_local
        let interval_start := max s_utc window_start_utc
        let interval_end := min e_utc window_end_utc
        if interval_start < interval_end then some ⟨interval_start, interval_end⟩
        else none))
    if biz_intervals = [] then []
    else merge_sorted (biz_intervals.mergeSort (fun a b => a.start ≤ b.start))

/-- `_get_business_intervals_for_window` (lines 111-163): resolve the
zone, then expand the schedule under it. -/
def get_business_intervals_for_window
    (zoneDB : String → Option Zone) (chicago : Zone)
    (bh_rows : List BusinessHour)
    (window_start_utc window_end_utc : ℚ)
    (tz_str : Option String) : List TimeInterval :=
  expand_business_hours (resolve_zone zoneDB chicago tz_str) bh_rows
    window_start_utc window_end_utc

/-- One output row of the report: the dict built at lines 219-227 of
`compute_uptime_for_store_internal` (and at lines 273-281 for a failed
store). -/
structure StoreReport where
  store_id : String
  uptime_last_hour_minutes : ℚ
  uptime_last_day_hours : ℚ
  uptime_last_week_hours : ℚ
  downtime_last_hour_minutes : ℚ
  downtime_last_day_hours : ℚ
  downtime_last_week_hours : ℚ
deriving Repr, DecidableEq

/-- The all-zero row appended for a store whose worker raised
(lines 273-281). -/
def zeroReport (sid : String) : StoreReport := ⟨sid, 0, 0, 0, 0, 0, 0⟩

/-- `_gather_store_ids` (lines 49-57): the distinct store ids appearing
in polls, business hours or timezones, sorted ascending. -/
def gather_store_ids (poll_ids bh_ids tz_ids : List String) : List String :=
  ((poll_ids ++ bh_ids ++ tz_ids).dedup).mergeSort (fun a b => a ≤ b)

/-- The collection loop of `generate_report` (lines 266-281): rows are
appended in worker completion order (`as_completed`); a worker whose
result is an exception (`none`) contributes an all-zero row for its
store id.  `completion_order` is the order in which the per-store
futures complete, a permutation of the submitted store ids. -/
def generate_rows (results : String → Option StoreReport)
    (completion_order : List String) : List StoreReport :=
  completion_order.map (fun sid => (results sid).getD (zeroReport sid))

/-- `update_every` (line 263): `max(1, min(5, total // 20 or 1))`;
Python's `or 1` replaces a zero quotient by 1. -/
def update_every (total : ℕ) : ℕ :=
  max 1 (min 5 (if total / 20 = 0 then 1 else total / 20))

/-- The completion counts at which `generate_report` publishes progress
(line 284): every `update_every total`-th completion, and always the
final one. -/
def progress_points (total : ℕ) : List ℕ :=
  ((List.range total).map (· + 1)).filter
    (fun done => done % update_every total = 0 || done = total)

/-- The published `percent_complete` values (line 289):
`(done / total) * 100.0` at each published completion count. -/
def progress_percents (total : ℕ) : List ℚ :=
  (progress_points total).map (fun (done : ℕ) => (done : ℚ) / (total : ℚ) * 100)

/-- The fields of a `reports` row read by the API (models.py,
lines 39-46). -/
structure ReportRow where
  status : String
  percent_complete : ℚ
  csv_path : Option String
deriving Repr, DecidableEq

/-- The JSON object returned by `GET /get_report`: a status plus the
optional keys that may accompany it (`none` = key absent). -/
structure GetReportResponse where
  status : String
  percent_complete : Option ℚ
  csv_path : Option (Option String)
deriving Repr, DecidableEq

/-- `get_report` (main.py, lines 74-82).  `db` models the `reports`
table keyed by `report_id`. -/
def get_report (db : String → Option ReportRow) (report_id : String) :
    GetReportResponse :=
  match db report_id with
  | none => ⟨"NotFound", none, none⟩
  | some rep =>
    if rep.status ≠ "Complete" then ⟨rep.status, none, none⟩
    else ⟨"Complete", none, some rep.csv_path⟩

/-- The set of instants covered by a half-open interval. -/
def TimeInterval.pointSet (iv : TimeInterval) : Set ℚ :=
  Set.Ico iv.start iv.stop

/-- The set of instants covered by a list of intervals. -/
def unionSet : List TimeInterval → Set ℚ
  | [] => ∅
  | iv :: rest => iv.pointSet ∪ unionSet rest

/-- Timestamp of poll `i` (`p[i].t`; the default is never reached for
`i < n`). -/
def pollT (polls : List (ℚ × String)) (i : ℕ) : ℚ :=
  (polls.getD i (0, "")).1

/-- Status of poll `i` (`p[i].status`). -/
def pollS (polls : List (ℚ × String)) (i : ℕ) : String :=
  (polls.getD i (0, "")).2

/-- Follows the spec's words (§4.2):
`mid[i] = p[i].t + (p[i+1].t − p[i].t)/2`. -/
def spec_mid (polls : List (ℚ × String)) (i : ℕ) : ℚ :=
  pollT polls i + (pollT polls (i + 1) - pollT polls i) / 2

/-- Follows the spec's words (§4.2): the interval attributed to poll
`i` is `[start_i, end_i)` with `start_i = mid[i-1]` if `i > 0` else
`p[0].t - M`, and `end_i = mid[i]` if `i < n-1` else `p[n-1].t + M`,
labeled `p[i].status`. -/
def spec_interval (polls : List (ℚ × String)) (M : ℚ) (i : ℕ) : StatusInterval :=
  (if 0 < i then spec_mid polls (i - 1) else pollT polls 0 - M,
   if i < polls.length - 1 then spec_mid polls i
     else pollT polls (polls.length - 1) + M,
   pollS polls i)

/-- Follows the spec's words (§4.2): one interval per poll by the
midpoint rule, each clipped to `[W.start − M, W.end + M]` with empty
intervals dropped. -/
def spec_status_intervals (polls : List (ℚ × String)) (ws we M : ℚ) :
    List StatusInterval :=
  ((List.range polls.length).map (spec_interval polls M)).filterMap (fun iv =>
    let s2 := max iv.1 (ws - M)
    let e2 := min iv.2.1 (we + M)
    if s2 < e2 then some (s2, e2, iv.2.2) else none)

/-- The total uptime contribution of one status interval across a list
of business intervals (the inner additions it causes at line 211). -/
def intervalUptimeContribution (s : StatusInterval)
    (biz : List TimeInterval) : ℚ :=
  (biz.map (fun b => contrib s b)).sum

/-- A concrete timezone object used to instantiate theorems about the
timezone fallback. -/
def tzTestZone : Zone := ⟨fun q => ⟨0, q⟩, fun l => l.tod⟩

/-- A concrete timezone database containing only the default zone. -/
def tzTestDB : String → Option Zone :=
  fun s => if s = DEFAULT_TZ then some tzTestZone else none

/-- A result oracle in which every store succeeds with an all-zero row. -/
def cexResults : String → Option StoreReport :=
  fun sid => some (zeroReport sid)

/-- Claim C6: for every store and window, if the total business seconds
over the window is zero the aggregator emits `(uptime, downtime) =
(0, 0)`; if the store's status-interval list is empty but business
seconds is positive, it emits `(0, business_seconds)`. -/
theorem C6_degenerate_windows (S : List StatusInterval)
    (biz : List TimeInterval) :
    ((biz.map TimeInterval.duration).sum = 0 → compute_window S biz = (0, 0)) ∧
    (S = [] → 0 < (biz.map TimeInterval.duration).sum →
      compute_window S biz = (0, (biz.map TimeInterval.duration).sum)) := by
  constructor
  · intro h
    simp [compute_window, h]
  · intro hS h
    simp [compute_window, hS, not_le.mpr h]

/-- Witness for C6 at concrete inputs: an empty business list gives
`(0, 0)`, and one 5-second business interval with no status intervals
gives `(0, 5)`. -/
theorem C6_degenerate_windows_witness :
    compute_window [] ([] : List TimeInterval) = (0, 0) ∧
    compute_window [] [⟨0, 5⟩] = (0, 5) := by
  refine ⟨(C6_degenerate_windows [] []).1 (by simp), ?_⟩
  have h := (C6_degenerate_windows [] [⟨0, 5⟩]).2 rfl
    (by norm_num [TimeInterval.duration])
  simpa [TimeInterval.duration] using h

/-- Claim C4 as stated is false on the code: while a job is in
progress, `get_report` returns only `{status: Running}` and omits the
`percent_complete` key, even when the stored row has
`percent_complete = 42`. -/
theorem C4_counterexample :
    get_report
      (fun rid => if rid = "r1" then some ⟨"Running", 42, none⟩ else none) "r1" =
      ⟨"Running", none, none⟩ ∧
    (⟨"Running", none, none⟩ : GetReportResponse) ≠ ⟨"Running", some 42, none⟩ := by
  exact ⟨rfl, by decide⟩

/-- Claim C4 amended: `GET /get_report` returns `{status: NotFound}`
for an unknown id; `{status: Running}` (with no `percent_complete`
key) while in progress; `{status: Complete, csv_path}` on success; and
`{status: Failed}` on failure. -/
theorem C4_status_responses (db : String → Option ReportRow) (rid : String) :
    (db rid = none → get_report db rid = ⟨"NotFound", none, none⟩) ∧
    (∀ rep, db rid = some rep → rep.status = "Running" →
      get_report db rid = ⟨"Running", none, none⟩) ∧
    (∀ rep, db rid = some rep → rep.status = "Complete" →
      get_report db rid = ⟨"Complete", none, some rep.csv_path⟩) ∧
    (∀ rep, db rid = some rep → rep.status = "Failed" →
      get_report db rid = ⟨"Failed", none, none⟩) := by
  refine ⟨fun h => by simp [get_report, h],
    fun rep h hs => by simp [get_report, h, hs],
    fun rep h hs => by simp [get_report, h, hs],
    fun rep h hs => by simp [get_report, h, hs]⟩

/-- Witness for C4 amended: the NotFound arm at an empty table. -/
theorem C4_status_responses_witness :
    get_report (fun _ => none) "x" = ⟨"NotFound", none, none⟩ :=
  (C4_status_responses (fun _ => none) "x").1 rfl

/-- Claim C10: a stored timezone string that does not name a valid IANA
zone does not make business-hours expansion fail: the default zone
`America/Chicago` is silently substituted, so the computed business
intervals equal those computed under the default zone. -/
theorem C10_timezone_fallback (zoneDB : String → Option Zone)
    (chicago : Zone) (bh_rows : List BusinessHour) (ws we : ℚ)
    (tzs : String) (hdb : zoneDB DEFAULT_TZ = some chicago)
    (hbad : zoneDB tzs = none) :
    get_business_intervals_for_window zoneDB chicago bh_rows ws we (some tzs) =
      get_business_intervals_for_window zoneDB chicago bh_rows ws we
        (some DEFAULT_TZ) := by
  have hz : resolve_zone zoneDB chicago (some tzs) =
      resolve_zone zoneDB chicago (some DEFAULT_TZ) := by
    by_cases h : tzs = ""
    · subst h
      simp [resolve_zone, hdb]
    · have hdef : DEFAULT_TZ ≠ "" := by decide
      simp [resolve_zone, h, hbad, hdef, hdb]
  unfold get_business_intervals_for_window
  rw [hz]

/-- Witness for C10: a concrete one-zone database and an unknown zone
name. -/
theorem C10_timezone_fallback_witness :
    get_business_intervals_for_window tzTestDB tzTestZone [] 0 1
        (some "Not/AZone") =
      get_business_intervals_for_window tzTestDB tzTestZone [] 0 1
        (some DEFAULT_TZ) :=
  C10_timezone_fallback tzTestDB tzTestZone [] 0 1 "Not/AZone" rfl rfl

/-- Claim C9: progress is published every `k` completions where
`k = max(1, min(5, N/20))` and always on the final completion; the
published `percent_complete` values are monotonically non-decreasing
in the number of completed stores and reach 100% at the end. -/
theorem C9_progress_properties (total : ℕ) (h : 1 ≤ total) :
    update_every total = max 1 (min 5 (total / 20)) ∧
    total ∈ progress_points total ∧
    List.Sorted (· ≤ ·) (progress_percents total) ∧
    (total : ℚ) / (total : ℚ) * 100 = 100 ∧
    ∀ x ∈ progress_percents total, x ≤ 100 := by
  have htQ : (0 : ℚ) < (total : ℚ) := by exact_mod_cast h
  have hfinal : (total : ℚ) / (total : ℚ) * 100 = 100 := by
    rw [div_self (ne_of_gt htQ)]
    ring
  refine ⟨?_, ?_, ?_, hfinal, ?_⟩
  · unfold update_every
    rcases Nat.eq_zero_or_pos (total / 20) with h0 | h0
    · rw [if_pos h0, h0]
      decide
    · rw [if_neg (Nat.pos_iff_ne_zero.mp h0)]
  · unfold progress_points
    refine List.mem_filter.mpr ⟨?_, by simp⟩
    exact List.mem_map.mpr ⟨total - 1, List.mem_range.mpr (by omega), by omega⟩
  · have hbase : ((List.range total).map (· + 1)).Pairwise (· ≤ ·) :=
      List.Pairwise.map (fun x => x + 1)
        (fun a b (hab : a ≤ b) => Nat.add_le_add_right hab 1)
        (List.pairwise_le_range total)
    have hpts : (progress_points total).Pairwise (· ≤ ·) := by
      unfold progress_points
      exact List.Pairwise.filter _ hbase
    unfold List.Sorted progress_percents
    refine List.Pairwise.map _ (fun (a b : ℕ) (hab : a ≤ b) => ?_) hpts
    have hQ : (a : ℚ) ≤ (b : ℚ) := by exact_mod_cast hab
    gcongr
  · intro x hx
    unfold progress_percents at hx
    rcases List.mem_map.mp hx with ⟨done, hdone, rfl⟩
    unfold progress_points at hdone
    have hmem := List.mem_of_mem_filter hdone
    rcases List.mem_map.mp hmem with ⟨i, hi, rfl⟩
    have hle : i + 1 ≤ total := List.mem_range.mp hi
    have h1 : ((i + 1 : ℕ) : ℚ) / (total : ℚ) ≤ 1 := by
      rw [div_le_one htQ]
      exact_mod_cast hle
    have h2 := mul_le_mul_of_nonneg_right h1 (by norm_num : (0 : ℚ) ≤ 100)
    simpa using h2

/-- Witness for C9 at `total = 7` stores. -/
theorem C9_progress_properties_witness :
    update_every 7 = max 1 (min 5 (7 / 20)) ∧
    7 ∈ progress_points 7 ∧
    List.Sorted (· ≤ ·) (progress_percents 7) ∧
    (7 : ℚ) / (7 : ℚ) * 100 = 100 ∧
    ∀ x ∈ progress_percents 7, x ≤ 100 :=
  C9_progress_properties 7 (by decide)

/-- The collected rows carry the submitted store ids in completion
order: a successful worker's row has its own store id, a failed
worker's fallback row has the submitted id. -/
theorem generate_rows_map_store_id (results : String → Option StoreReport)
    (order : List String)
    (hres : ∀ sid r, results sid = some r → r.store_id = sid) :
    (generate_rows results order).map StoreReport.store_id = order := by
  induction order with
  | nil => rfl
  | cons sid rest ih =>
    have hhead : ((results sid).getD (zeroReport sid)).store_id = sid := by
      cases h : results sid with
      | none => rfl
      | some r => exact hres sid r h
    simpa [generate_rows, hhead] using ih

/-- Claim C1 as stated is false on the code: `generate_report` never
sorts the collected rows, so a completion order differing from the
ascending id order yields CSV rows out of ascending order.  Store set
{a, b}, every worker succeeds, completion order [b, a] gives rows
[b, a]. -/
theorem C1_counterexample :
    (["b", "a"] : List String).Perm (gather_store_ids ["a", "b"] [] []) ∧
    (generate_rows cexResults ["b", "a"]).map StoreReport.store_id = ["b", "a"] ∧
    ¬ List.Sorted (· ≤ ·)
      ((generate_rows cexResults ["b", "a"]).map StoreReport.store_id) := by
  refine ⟨?_, rfl, ?_⟩
  · unfold gather_store_ids
    refine List.Perm.trans ?_ (List.mergeSort_perm _ _).symm
    decide
  · have : (generate_rows cexResults ["b", "a"]).map StoreReport.store_id =
        ["b", "a"] := rfl
    rw [this]
    intro hsort
    have hba : ("b" : String) ≤ "a" := List.rel_of_sorted_cons hsort _ (by simp)
    have hnot : ¬ ("b" : String) ≤ "a" := by
      rw [String.le_iff_toList_le]
      decide
    exact hnot hba

/-- Claim C1 amended: the rows of the written CSV appear in worker
completion order (the orchestrator does not sort after collection);
their store ids are a permutation of the ascending distinct store-id
list. -/
theorem C1_rows_follow_completion_order
    (poll_ids bh_ids tz_ids : List String)
    (results : String → Option StoreReport) (order : List String)
    (hres : ∀ sid r, results sid = some r → r.store_id = sid)
    (hperm : order.Perm (gather_store_ids poll_ids bh_ids tz_ids)) :
    (generate_rows results order).map StoreReport.store_id = order ∧
    ((generate_rows results order).map StoreReport.store_id).Perm
      (gather_store_ids poll_ids bh_ids tz_ids) := by
  have h := generate_rows_map_store_id results order hres
  exact ⟨h, by rw [h]; exact hperm⟩

/-- Witness for C1 amended at a concrete two-store run with completion
order [b, a]. -/
theorem C1_rows_follow_completion_order_witness :
    (generate_rows cexResults ["b", "a"]).map StoreReport.store_id = ["b", "a"] ∧
    ((generate_rows cexResults ["b", "a"]).map StoreReport.store_id).Perm
      (gather_store_ids ["a", "b"] [] []) :=
  C1_rows_follow_completion_order ["a", "b"] [] [] cexResults ["b", "a"]
    (fun sid r h => by injection h with h2; rw [← h2]; rfl)
    (by unfold gather_store_ids
        refine List.Perm.trans ?_ (List.mergeSort_perm _ _).symm
        decide)

/-- Claim C8: for every input with at least one distinct store id, the
written CSV contains exactly one row per distinct store id appearing
in polls, schedules or timezones; a store whose aggregation raises an
exception yields the all-zero row for its id and does not abort the
report. -/
theorem C8_one_row_per_store
    (poll_ids bh_ids tz_ids : List String)
    (results : String → Option StoreReport) (order : List String)
    (hres : ∀ sid r, results sid = some r → r.store_id = sid)
    (hperm : order.Perm (gather_store_ids poll_ids bh_ids tz_ids))
    (hne : gather_store_ids poll_ids bh_ids tz_ids ≠ []) :
    (generate_rows results order).length =
      (gather_store_ids poll_ids bh_ids tz_ids).length ∧
    (∀ sid ∈ gather_store_ids poll_ids bh_ids tz_ids,
      ((generate_rows results order).map StoreReport.store_id).count sid = 1) ∧
    (∀ sid ∈ gather_store_ids poll_ids bh_ids tz_ids, results sid = none →
      zeroReport sid ∈ generate_rows results order) := by
  have hmap := generate_rows_map_store_id results order hres
  have hnodup : (gather_store_ids poll_ids bh_ids tz_ids).Nodup := by
    unfold gather_store_ids
    exact (List.mergeSort_perm _ _).nodup_iff.mpr (List.nodup_dedup _)
  refine ⟨?_, ?_, ?_⟩
  · have : (generate_rows results order).length = order.length := by
      unfold generate_rows
      exact List.length_map _ _
    rw [this, hperm.length_eq]
  · intro sid hsid
    rw [hmap, hperm.count_eq]
    exact List.count_eq_one_of_mem hnodup hsid
  · intro sid hsid hnone
    have hmem : sid ∈ order := hperm.mem_iff.mpr hsid
    refine List.mem_map.mpr ⟨sid, hmem, ?_⟩
    rw [hnone]
    rfl

/-- Witness for C8 at a concrete two-store run in which store b's
worker raises. -/
theorem C8_one_row_per_store_witness :
    (generate_rows (fun sid => if sid = "a" then some (zeroReport "a") else none)
        ["b", "a"]).length = (gather_store_ids ["a", "b"] [] []).length ∧
    (∀ sid ∈ gather_store_ids ["a", "b"] [] [],
      ((generate_rows
          (fun sid => if sid = "a" then some (zeroReport "a") else none)
          ["b", "a"]).map StoreReport.store_id).count sid = 1) ∧
    (∀ sid ∈ gather_store_ids ["a", "b"] [] [],
      (fun sid => if sid = "a" then some (zeroReport "a") else none) sid = none →
      zeroReport sid ∈ generate_rows
        (fun sid => if sid = "a" then some (zeroReport "a") else none)
        ["b", "a"]) :=
  C8_one_row_per_store ["a", "b"] [] []
    (fun sid => if sid = "a" then some (zeroReport "a") else none) ["b", "a"]
    (fun sid r h => by
      have h' : (if sid = "a" then some (zeroReport "a") else none) = some r := h
      by_cases hs : sid = "a"
      · subst hs
        rw [if_pos rfl] at h'
        injection h' with h2
        rw [← h2]
        rfl
      · rw [if_neg hs] at h'
        exact absurd h' (by simp))
    (by unfold gather_store_ids
        refine List.Perm.trans ?_ (List.mergeSort_perm _ _).symm
        decide)
    (by unfold gather_store_ids
        intro h
        have hlen := congrArg List.length h
        rw [(List.mergeSort_perm _ _).length_eq] at hlen
        exact absurd hlen (by decide))

/-- Every interval emitted by the merge loop starts at or after the
running interval's start. -/
theorem merge_aux_starts : ∀ (rest : List TimeInterval) (cur : TimeInterval),
    (∀ it ∈ rest, cur.start ≤ it.start) →
    rest.Pairwise (fun a b => a.start ≤ b.start) →
    ∀ iv ∈ merge_aux cur rest, cur.start ≤ iv.start := by
  intro rest
  induction rest with
  | nil =>
    intro cur _ _ iv hiv
    simp only [merge_aux, List.mem_singleton] at hiv
    rw [hiv]
  | cons it rest ih =>
    intro cur hall hp iv hiv
    simp only [merge_aux] at hiv
    by_cases h : it.start ≤ cur.stop
    · rw [if_pos h] at hiv
      exact ih ⟨cur.start, max cur.stop it.stop⟩
        (fun j hj => hall j (List.mem_cons_of_mem _ hj)) hp.of_cons iv hiv
    · rw [if_neg h] at hiv
      rcases List.mem_cons.mp hiv with heq | hiv'
      · rw [heq]
      · have hj := ih it (fun j hj => List.rel_of_pairwise_cons hp hj)
          hp.of_cons iv hiv'
        exact le_trans (hall it (by simp)) hj

/-- The merge loop keeps every interval well-formed and emits them
strictly separated: each emitted end lies strictly before the next
emitted start. -/
theorem merge_aux_good : ∀ (rest : List TimeInterval) (cur : TimeInterval),
    cur.start ≤ cur.stop →
    (∀ it ∈ rest, it.start ≤ it.stop) →
    (∀ it ∈ rest, cur.start ≤ it.start) →
    rest.Pairwise (fun a b => a.start ≤ b.start) →
    (∀ iv ∈ merge_aux cur rest, iv.start ≤ iv.stop) ∧
    (merge_aux cur rest).Pairwise (fun a b => a.stop < b.start) := by
  intro rest
  induction rest with
  | nil =>
    intro cur hc _ _ _
    constructor
    · intro iv hiv
      simp only [merge_aux, List.mem_singleton] at hiv
      rw [hiv]
      exact hc
    · simp [merge_aux]
  | cons it rest ih =>
    intro cur hc hv hall hp
    by_cases h : it.start ≤ cur.stop
    · have hcur' : (⟨cur.start, max cur.stop it.stop⟩ : TimeInterval).start ≤
          (⟨cur.start, max cur.stop it.stop⟩ : TimeInterval).stop :=
        le_trans hc (le_max_left _ _)
      have hrec := ih ⟨cur.start, max cur.stop it.stop⟩ hcur'
        (fun j hj => hv j (List.mem_cons_of_mem _ hj))
        (fun j hj => hall j (List.mem_cons_of_mem _ hj)) hp.of_cons
      constructor
      · intro iv hiv
        simp only [merge_aux, if_pos h] at hiv
        exact hrec.1 iv hiv
      · simp only [merge_aux, if_pos h]
        exact hrec.2
    · have hrec := ih it (hv it (by simp))
        (fun j hj => hv j (List.mem_cons_of_mem _ hj))
        (fun j hj => List.rel_of_pairwise_cons hp hj) hp.of_cons
      constructor
      · intro iv hiv
        simp only [merge_aux, if_neg h] at hiv
        rcases List.mem_cons.mp hiv with heq | hiv'
        · rw [heq]
          exact hc
        · exact hrec.1 iv hiv'
      · simp only [merge_aux, if_neg h]
        refine List.Pairwise.cons (fun j hj => ?_) hrec.2
        have hjs : it.start ≤ j.start := merge_aux_starts rest it
          (fun k hk => List.rel_of_pairwise_cons hp hk) hp.of_cons j hj
        have hlt : cur.stop < it.start := lt_of_not_ge h
        linarith

/-- The merge loop preserves the covered point-set: its output covers
exactly the running interval united with the remaining input. -/
theorem merge_aux_unionSet : ∀ (rest : List TimeInterval) (cur : TimeInterval),
    cur.start ≤ cur.stop →
    (∀ it ∈ rest, it.start ≤ it.stop) →
    (∀ it ∈ rest, cur.start ≤ it.start) →
    rest.Pairwise (fun a b => a.start ≤ b.start) →
    unionSet (merge_aux cur rest) = cur.pointSet ∪ unionSet rest := by
  intro rest
  induction rest with
  | nil =>
    intro cur _ _ _ _
    simp [merge_aux, unionSet]
  | cons it rest ih =>
    intro cur hc hv hall hp
    by_cases h : it.start ≤ cur.stop
    · have hcur' : (⟨cur.start, max cur.stop it.stop⟩ : TimeInterval).start ≤
          (⟨cur.start, max cur.stop it.stop⟩ : TimeInterval).stop :=
        le_trans hc (le_max_left _ _)
      have hrec := ih ⟨cur.start, max cur.stop it.stop⟩ hcur'
        (fun j hj => hv j (List.mem_cons_of_mem _ hj))
        (fun j hj => hall j (List.mem_cons_of_mem _ hj)) hp.of_cons
      have hst : cur.start ≤ it.start := hall it (by simp)
      have hset : (⟨cur.start, max cur.stop it.stop⟩ : TimeInterval).pointSet =
          cur.pointSet ∪ it.pointSet := by
        unfold TimeInterval.pointSet
        rw [Set.Ico_union_Ico' h (le_trans hst (hv it (by simp))),
          min_eq_left hst]
      have hgoal : unionSet (merge_aux cur (it :: rest)) =
          unionSet (merge_aux ⟨cur.start, max cur.stop it.stop⟩ rest) := by
        simp only [merge_aux, if_pos h]
      rw [hgoal, hrec, hset]
      simp only [unionSet]
      rw [Set.union_assoc]
    · have hrec := ih it (hv it (by simp))
        (fun j hj => hv j (List.mem_cons_of_mem _ hj))
        (fun j hj => List.rel_of_pairwise_cons hp hj) hp.of_cons
      have hgoal : unionSet (merge_aux cur (it :: rest)) =
          cur.pointSet ∪ unionSet (merge_aux it rest) := by
        simp only [merge_aux, if_neg h, unionSet]
      rw [hgoal, hrec]
      simp only [unionSet]

/-- Claim C5: on a start-ordered interval list, the sorted-merge
absorbs any interval whose start is at or before the running end
(taking the max of ends), and its output is pairwise disjoint and
covers exactly the same point-set as the union of its input. -/
theorem C5_merge_sorted_properties (l : List TimeInterval)
    (hsorted : l.Pairwise (fun a b => a.start ≤ b.start))
    (hvalid : ∀ iv ∈ l, iv.start ≤ iv.stop) :
    (merge_sorted l).Pairwise
      (fun a b => Disjoint a.pointSet b.pointSet) ∧
    unionSet (merge_sorted l) = unionSet l := by
  cases l with
  | nil => exact ⟨List.Pairwise.nil, rfl⟩
  | cons first rest =>
    have hfirst : first.start ≤ first.stop := hvalid first (by simp)
    have hvrest : ∀ it ∈ rest, it.start ≤ it.stop :=
      fun it hit => hvalid it (List.mem_cons_of_mem _ hit)
    have hall : ∀ it ∈ rest, first.start ≤ it.start :=
      fun it hit => List.rel_of_pairwise_cons hsorted hit
    have hgood := merge_aux_good rest first hfirst hvrest hall hsorted.of_cons
    have hunion := merge_aux_unionSet rest first hfirst hvrest hall
      hsorted.of_cons
    constructor
    · refine hgood.2.imp (fun {a b} hab => ?_)
      rw [Set.disjoint_left]
      intro x hxa hxb
      have h1 : x < a.stop := hxa.2
      have h2 : b.start ≤ x := hxb.1
      linarith
    · exact hunion

/-- Witness for C5 on a concrete list with one touching pair and one
separated interval. -/
theorem C5_merge_sorted_properties_witness :
    (merge_sorted [⟨0, 2⟩, ⟨1, 3⟩, ⟨5, 6⟩]).Pairwise
      (fun a b => Disjoint a.pointSet b.pointSet) ∧
    unionSet (merge_sorted [⟨0, 2⟩, ⟨1, 3⟩, ⟨5, 6⟩]) =
      unionSet [⟨0, 2⟩, ⟨1, 3⟩, ⟨5, 6⟩] :=
  C5_merge_sorted_properties [⟨0, 2⟩, ⟨1, 3⟩, ⟨5, 6⟩] (by decide) (by decide)

/-- `pollT` reads the indexed poll's timestamp. -/
theorem pollT_eq_getElem : ∀ (polls : List (ℚ × String)) (i : ℕ)
    (h : i < polls.length), pollT polls i = (polls[i]).1 := by
  intro polls i h
  unfold pollT
  rw [List.getD_eq_getElem?_getD, List.getElem?_eq_getElem h]
  rfl

/-- `pollS` reads the indexed poll's status. -/
theorem pollS_eq_getElem : ∀ (polls : List (ℚ × String)) (i : ℕ)
    (h : i < polls.length), pollS polls i = (polls[i]).2 := by
  intro polls i h
  unfold pollS
  rw [List.getD_eq_getElem?_getD, List.getElem?_eq_getElem h]
  rfl

/-- `mids` has one entry per adjacent poll pair. -/
theorem mids_length : ∀ polls : List (ℚ × String),
    (mids polls).length = polls.length - 1 := by
  intro polls
  match polls with
  | [] => rfl
  | [p] => rfl
  | p :: q :: rest =>
    have ih := mids_length (q :: rest)
    simp only [mids, List.length_cons] at ih ⊢
    omega

/-- Index formula for `mids`: entry `i` is the midpoint of polls `i`
and `i+1`. -/
theorem mids_getElem : ∀ (polls : List (ℚ × String)) (i : ℕ)
    (h : i < (mids polls).length),
    (mids polls)[i] = pollT polls i + (pollT polls (i + 1) - pollT polls i) / 2 := by
  intro polls
  match polls with
  | [] => intro i h; simp [mids] at h
  | [p] => intro i h; simp [mids] at h
  | p :: q :: rest =>
    intro i h
    match i with
    | 0 => simp [mids, pollT]
    | j + 1 =>
      have hj : j < (mids (q :: rest)).length := by
        simpa [mids] using h
      have ih := mids_getElem (q :: rest) j hj
      simpa [mids, pollT] using ih

/-- Length of the three-way zip. -/
theorem zip3i_length : ∀ (ss es : List ℚ) (ps : List (ℚ × String)),
    (zip3i ss es ps).length = min (min ss.length es.length) ps.length := by
  intro ss
  induction ss with
  | nil => intro es ps; simp [zip3i]
  | cons s ss ih =>
    intro es ps
    cases es with
    | nil => simp [zip3i]
    | cons e es =>
      cases ps with
      | nil => simp [zip3i]
      | cons p ps =>
        simp only [zip3i, List.length_cons, ih]
        omega

/-- Index formula for the three-way zip. -/
theorem zip3i_getElem : ∀ (ss es : List ℚ) (ps : List (ℚ × String)) (i : ℕ)
    (h : i < (zip3i ss es ps).length) (hss : i < ss.length)
    (hes : i < es.length) (hps : i < ps.length),
    (zip3i ss es ps)[i] = (ss[i], es[i], (ps[i]).2) := by
  intro ss
  induction ss with
  | nil => intro es ps i h hss hes hps; simp at hss
  | cons s ss ih =>
    intro es ps i h hss hes hps
    cases es with
    | nil => simp at hes
    | cons e es =>
      cases ps with
      | nil => simp at hps
      | cons p ps =>
        match i with
        | 0 => simp [zip3i]
        | j + 1 =>
          have h' : j < (zip3i ss es ps).length := by
            simpa [zip3i] using h
          simpa [zip3i] using ih es ps j h' (by simpa using hss)
            (by simpa using hes) (by simpa using hps)

/-- The raw interval rows have one row per poll. -/
theorem raw_length (polls : List (ℚ × String)) (M : ℚ) (hne : polls ≠ []) :
    (raw_status_intervals polls M).length = polls.length := by
  cases polls with
  | nil => exact absurd rfl hne
  | cons p rest =>
    simp only [raw_status_intervals, zip3i_length, List.length_cons,
      List.length_append, List.length_singleton, mids_length]
    omega

/-- The code's raw interval rows coincide with the spec's per-index
midpoint formula. -/
theorem raw_eq_spec (polls : List (ℚ × String)) (M : ℚ) :
    raw_status_intervals polls M =
      (List.range polls.length).map (spec_interval polls M) := by
  cases polls with
  | nil => rfl
  | cons p rest =>
    apply List.ext_getElem
    · rw [raw_length _ _ (by simp)]
      simp
    · intro i h1 h2
      have hn : i < (p :: rest).length := by
        rw [← raw_length (p :: rest) M (by simp)]
        exact h1
      have hn' : i < rest.length + 1 := by
        simpa using hn
      have hms : (mids (p :: rest)).length = rest.length := by
        rw [mids_length]
        simp
      have hrhs : ((List.range (p :: rest).length).map
          (spec_interval (p :: rest) M))[i] = spec_interval (p :: rest) M i := by
        simp
      rw [hrhs]
      have hss : i < ((p.1 - M) :: mids (p :: rest)).length := by
        simp only [List.length_cons, hms]
        omega
      have hes : i < (mids (p :: rest) ++
          [(((p :: rest).getLast (by simp)).1 + M)]).length := by
        simp only [List.length_append, List.length_singleton, hms]
        omega
      have hlhs : (raw_status_intervals (p :: rest) M)[i] =
          ((((p.1 - M) :: mids (p :: rest)))[i],
           ((mids (p :: rest) ++ [(((p :: rest).getLast (by simp)).1 + M)])[i]),
           (((p :: rest)[i]).2)) := by
        simp only [raw_status_intervals]
        exact zip3i_getElem _ _ _ i h1 hss hes hn
      rw [hlhs]
      unfold spec_interval
      refine Prod.ext ?_ (Prod.ext ?_ ?_)
      · show (((p.1 - M) :: mids (p :: rest)))[i] =
          (if 0 < i then spec_mid (p :: rest) (i - 1)
           else pollT (p :: rest) 0 - M)
        match i with
        | 0 =>
          simp [pollT]
        | j + 1 =>
          have hj : j < (mids (p :: rest)).length := by
            simp only [hms]
            omega
          simp only [List.getElem_cons_succ]
          rw [mids_getElem _ j hj]
          simp [spec_mid]
      · show ((mids (p :: rest) ++ [(((p :: rest).getLast (by simp)).1 + M)])[i]) =
          (if i < (p :: rest).length - 1 then spec_mid (p :: rest) i
           else pollT (p :: rest) ((p :: rest).length - 1) + M)
        by_cases hi : i < (mids (p :: rest)).length
        · rw [List.getElem_append_left hi, mids_getElem _ i hi]
          have hilt : i < rest.length := lt_of_lt_of_eq hi hms
          rw [if_pos (show i < (p :: rest).length - 1 by
            simp only [List.length_cons, Nat.add_sub_cancel]
            exact hilt)]
          simp [spec_mid]
        · have hile : rest.length ≤ i := by
            rw [hms] at hi
            omega
          have himeq : i = rest.length := by
            omega
          have hge : (mids (p :: rest)).length ≤ i := Nat.le_of_not_lt hi
          rw [List.getElem_append_right hge]
          rw [if_neg (show ¬ i < (p :: rest).length - 1 by
            simp only [List.length_cons, Nat.add_sub_cancel]
            omega)]
          rw [pollT_eq_getElem _ _ (by simp only [List.length_cons]; omega)]
          simp only [List.getElem_singleton, List.getLast_eq_getElem,
            List.length_cons, Nat.add_sub_cancel]
      · show ((p :: rest)[i]).2 = pollS (p :: rest) i
        rw [pollS_eq_getElem _ _ hn]

/-- Claim C3: for a non-empty ascending poll list the reconstruction
output is exactly one midpoint-rule interval per poll, labeled with the
poll's status and clipped to the extended window with empty intervals
dropped; for an empty poll list the output is empty. -/
theorem C3_midpoint_reconstruction (polls : List (ℚ × String))
    (ws we M : ℚ) (hne : polls ≠ [])
    (hsort : polls.Chain' (fun a b => a.1 ≤ b.1)) :
    build_status_intervals_for_window polls ws we M =
      spec_status_intervals polls ws we M ∧
    build_status_intervals_for_window [] ws we M = [] := by
  refine ⟨?_, rfl⟩
  cases polls with
  | nil => exact absurd rfl hne
  | cons p rest =>
    show clipIntervals ws we M (raw_status_intervals (p :: rest) M) = _
    rw [raw_eq_spec]
    rfl

/-- Witness for C3 at two concrete sorted polls. -/
theorem C3_midpoint_reconstruction_witness :
    build_status_intervals_for_window [(0, "active"), (10, "inactive")] 0 20 12 =
      spec_status_intervals [(0, "active"), (10, "inactive")] 0 20 12 ∧
    build_status_intervals_for_window [] 0 20 12 = [] :=
  C3_midpoint_reconstruction [(0, "active"), (10, "inactive")] 0 20 12
    (by simp) (by norm_num [List.chain'_cons])

/-- Statuses in the zipped rows come verbatim from the poll list. -/
theorem zip3i_status_mem : ∀ (ss es : List ℚ) (ps : List (ℚ × String))
    (iv : StatusInterval), iv ∈ zip3i ss es ps → ∃ p ∈ ps, iv.2.2 = p.2 := by
  intro ss
  induction ss with
  | nil => intro es ps iv hiv; simp [zip3i] at hiv
  | cons s ss ih =>
    intro es ps iv hiv
    cases es with
    | nil => simp [zip3i] at hiv
    | cons e es =>
      cases ps with
      | nil => simp [zip3i] at hiv
      | cons p ps =>
        simp only [zip3i, List.mem_cons] at hiv
        rcases hiv with heq | hiv'
        · exact ⟨p, by simp, by rw [heq]⟩
        · rcases ih es ps iv hiv' with ⟨q, hq, hqs⟩
          exact ⟨q, List.mem_cons_of_mem _ hq, hqs⟩

/-- Clipping keeps each surviving row's status verbatim. -/
theorem clip_status_mem (ws we M : ℚ) (l : List StatusInterval)
    (iv : StatusInterval) (hiv : iv ∈ clipIntervals ws we M l) :
    ∃ jv ∈ l, iv.2.2 = jv.2.2 := by
  unfold clipIntervals at hiv
  rcases List.mem_filterMap.mp hiv with ⟨jv, hjv, hf⟩
  by_cases hc : max jv.1 (ws - M) < min jv.2.1 (we + M)
  · rw [if_pos hc] at hf
    refine ⟨jv, hjv, ?_⟩
    have := (Option.some.injEq _ _).mp hf
    rw [← this]
  · rw [if_neg hc] at hf
    exact absurd hf (by simp)

/-- Claim C7 as stated is false on the code: the status `"ACTIVE"` is
neither `active` nor `inactive` yet contributes its full overlap to
uptime, because the code lowercases before comparing. -/
theorem C7_counterexample :
    ("ACTIVE" ≠ "active" ∧ "ACTIVE" ≠ "inactive") ∧
    uptimeSeconds [(0, 10, "ACTIVE")] [⟨0, 10⟩] = 10 ∧ (10 : ℚ) ≠ 0 := by
  refine ⟨⟨by decide, by decide⟩, ?_, by norm_num⟩
  have hl : str_lower "ACTIVE" = "active" := by decide
  norm_num [uptimeSeconds, contrib, TimeInterval.overlap_seconds, hl]

/-- Claim C7 amended: every status string is preserved verbatim from
the polls into the reconstruction output, and a status interval whose
lowercased status differs from `active` contributes zero seconds to
uptime in every window. -/
theorem C7_nonactive_contributes_zero (polls : List (ℚ × String))
    (ws we M : ℚ) (s : StatusInterval) (biz : List TimeInterval)
    (hs : str_lower s.2.2 ≠ "active") :
    (∀ iv ∈ build_status_intervals_for_window polls ws we M,
      ∃ t, (t, iv.2.2) ∈ polls) ∧
    intervalUptimeContribution s biz = 0 := by
  constructor
  · intro iv hiv
    cases polls with
    | nil => simp [build_status_intervals_for_window] at hiv
    | cons p rest =>
      have hiv' : iv ∈ clipIntervals ws we M
          (raw_status_intervals (p :: rest) M) := hiv
      rcases clip_status_mem ws we M _ iv hiv' with ⟨jv, hjv, hst⟩
      have hjv' : jv ∈ zip3i ((p.1 - M) :: mids (p :: rest))
          (mids (p :: rest) ++ [(((p :: rest).getLast (by simp)).1 + M)])
          (p :: rest) := hjv
      rcases zip3i_status_mem _ _ _ jv hjv' with ⟨q, hq, hqs⟩
      refine ⟨q.1, ?_⟩
      have : (q.1, iv.2.2) = q := by
        rw [hst, hqs]
      rw [this]
      exact hq
  · unfold intervalUptimeContribution
    refine List.sum_eq_zero ?_
    intro x hx
    rcases List.mem_map.mp hx with ⟨b, _, rfl⟩
    unfold contrib
    by_cases h1 : TimeInterval.overlap_seconds ⟨s.1, s.2.1⟩ b ≤ 0
    · simp [h1]
    · simp [h1, hs]

/-- Witness for C7 amended: the `inactive` status contributes nothing
over a concrete business interval. -/
theorem C7_nonactive_contributes_zero_witness :
    (∀ iv ∈ build_status_intervals_for_window [((0 : ℚ), "active")] 0 20 12,
      ∃ t, (t, iv.2.2) ∈ [((0 : ℚ), "active")]) ∧
    intervalUptimeContribution (0, 5, "inactive") [⟨0, 5⟩] = 0 :=
  C7_nonactive_contributes_zero [((0 : ℚ), "active")] 0 20 12
    (0, 5, "inactive") [⟨0, 5⟩] (by decide)

/-- The boundary column `x :: mids ++ [z]` is a non-decreasing chain
whenever the polls are time-ordered, `x` lies below the first poll and
`z` lies above the last. -/
theorem mids_chain : ∀ (rest : List (ℚ × String)) (p : ℚ × String) (x z : ℚ),
    x ≤ p.1 → (((p :: rest).getLast (by simp)).1 ≤ z) →
    List.Chain' (fun a b => a.1 ≤ b.1) (p :: rest) →
    List.Chain' (· ≤ ·) (x :: (mids (p :: rest) ++ [z])) := by
  intro rest
  induction rest with
  | nil =>
    intro p x z hx hz _
    have hxz : x ≤ z := le_trans hx hz
    simp [mids, hxz]
  | cons q rest ih =>
    intro p x z hx hz hchain
    have hpq : p.1 ≤ q.1 := (List.chain'_cons.mp hchain).1
    have htail : List.Chain' (fun a b => a.1 ≤ b.1) (q :: rest) :=
      (List.chain'_cons.mp hchain).2
    have hzq : ((q :: rest).getLast (by simp)).1 ≤ z := by
      rw [List.getLast_cons (by simp : (q :: rest) ≠ [])] at hz
      exact hz
    have hm0q : p.1 + (q.1 - p.1) / 2 ≤ q.1 := by linarith
    have hxm0 : x ≤ p.1 + (q.1 - p.1) / 2 := by linarith
    have ihq := ih q (p.1 + (q.1 - p.1) / 2) z hm0q hzq htail
    show List.Chain' (· ≤ ·)
      (x :: ((p.1 + (q.1 - p.1) / 2) :: mids (q :: rest)) ++ [z])
    exact List.chain'_cons.mpr ⟨hxm0, ihq⟩

/-- Starts in the zipped rows come from the start column. -/
theorem zip3i_start_mem : ∀ (ss es : List ℚ) (ps : List (ℚ × String))
    (iv : StatusInterval), iv ∈ zip3i ss es ps → iv.1 ∈ ss := by
  intro ss
  induction ss with
  | nil => intro es ps iv hiv; simp [zip3i] at hiv
  | cons s ss ih =>
    intro es ps iv hiv
    cases es with
    | nil => simp [zip3i] at hiv
    | cons e es =>
      cases ps with
      | nil => simp [zip3i] at hiv
      | cons p ps =>
        simp only [zip3i, List.mem_cons] at hiv
        rcases hiv with heq | hiv'
        · rw [heq]
          simp
        · exact List.mem_cons_of_mem _ (ih es ps iv hiv')

/-- The zipped rows are chained: each row's end lies at or before the
next row's start (each interior boundary is shared). -/
theorem zip3i_chained : ∀ (ms : List ℚ) (a z : ℚ) (ps : List (ℚ × String)),
    (a :: (ms ++ [z])).Pairwise (· ≤ ·) →
    (zip3i (a :: ms) (ms ++ [z]) ps).Pairwise (fun A B => A.2.1 ≤ B.1) := by
  intro ms
  induction ms with
  | nil =>
    intro a z ps _
    cases ps with
    | nil => simp [zip3i]
    | cons p ps' => simp [zip3i]
  | cons m ms' ih =>
    intro a z ps hp
    cases ps with
    | nil => simp [zip3i]
    | cons p ps' =>
      have hp' : ((m :: ms') ++ [z]).Pairwise (· ≤ ·) := hp.of_cons
      have hrec := ih m z ps' (by simpa using hp')
      show ((a, m, p.2) :: zip3i (m :: ms') (ms' ++ [z]) ps').Pairwise
        (fun A B => A.2.1 ≤ B.1)
      refine List.Pairwise.cons (fun B hB => ?_) hrec
      have hB1 : B.1 ∈ m :: ms' := zip3i_start_mem _ _ _ B hB
      show m ≤ B.1
      rcases List.mem_cons.mp hB1 with heq | hmem
      · rw [heq]
      · exact List.rel_of_pairwise_cons (by simpa using hp')
          (List.mem_append_left [z] hmem)

/-- Clipping keeps rows well-formed and preserves the chain order. -/
theorem clip_good (ws we M : ℚ) (l : List StatusInterval)
    (hp : l.Pairwise (fun A B => A.2.1 ≤ B.1)) :
    (∀ iv ∈ clipIntervals ws we M l, iv.1 ≤ iv.2.1) ∧
    (clipIntervals ws we M l).Pairwise (fun A B => A.2.1 ≤ B.1) := by
  constructor
  · intro iv hiv
    unfold clipIntervals at hiv
    rcases List.mem_filterMap.mp hiv with ⟨jv, _, hf⟩
    by_cases hc : max jv.1 (ws - M) < min jv.2.1 (we + M)
    · rw [if_pos hc] at hf
      have := (Option.some.injEq _ _).mp hf
      rw [← this]
      exact le_of_lt hc
    · rw [if_neg hc] at hf
      exact absurd hf (by simp)
  · unfold clipIntervals
    rw [List.pairwise_filterMap]
    refine hp.imp (fun {A B} hAB => ?_)
    intro x hx y hy
    by_cases hcA : max A.1 (ws - M) < min A.2.1 (we + M)
    · rw [if_pos hcA] at hx
      by_cases hcB : max B.1 (ws - M) < min B.2.1 (we + M)
      · rw [if_pos hcB] at hy
        have hxe : x = (max A.1 (ws - M), min A.2.1 (we + M), A.2.2) :=
          (Option.mem_some_iff.mp hx).symm
        have hye : y = (max B.1 (ws - M), min B.2.1 (we + M), B.2.2) :=
          (Option.mem_some_iff.mp hy).symm
        rw [hxe, hye]
        show min A.2.1 (we + M) ≤ max B.1 (ws - M)
        calc min A.2.1 (we + M) ≤ A.2.1 := min_le_left _ _
          _ ≤ B.1 := hAB
          _ ≤ max B.1 (ws - M) := le_max_left _ _
      · rw [if_neg hcB] at hy
        exact absurd hy (by simp)
    · rw [if_neg hcA] at hx
      exact absurd hx (by simp)

/-- The reconstruction output for a time-ordered poll list consists of
well-formed intervals in strict forward order: each interval's end is
at or before the next interval's start. -/
theorem build_good (polls : List (ℚ × String)) (ws we M : ℚ) (hM : 0 ≤ M)
    (hsort : polls.Chain' (fun a b => a.1 ≤ b.1)) :
    (∀ iv ∈ build_status_intervals_for_window polls ws we M, iv.1 ≤ iv.2.1) ∧
    (build_status_intervals_for_window polls ws we M).Pairwise
      (fun A B => A.2.1 ≤ B.1) := by
  cases polls with
  | nil =>
    constructor
    · intro iv hiv
      simp [build_status_intervals_for_window] at hiv
    · simp [build_status_intervals_for_window]
  | cons p rest =>
    have hchain := mids_chain rest p (p.1 - M)
      ((((p :: rest).getLast (by simp))).1 + M) (by linarith) (by linarith) hsort
    have hpair : ((p.1 - M) :: (mids (p :: rest) ++
        [(((p :: rest).getLast (by simp))).1 + M])).Pairwise (· ≤ ·) :=
      List.chain'_iff_pairwise.mp hchain
    have hzip := zip3i_chained (mids (p :: rest)) (p.1 - M)
      ((((p :: rest).getLast (by simp))).1 + M) (p :: rest) hpair
    have hclip := clip_good ws we M (raw_status_intervals (p :: rest) M)
      (by simpa [raw_status_intervals] using hzip)
    exact hclip

/-- Chained, well-formed status intervals whose starts all lie at or
above `c` overlap a fixed interval `b` by at most the part of `b`
above `c`. -/
theorem overlap_sum_le (b : TimeInterval) :
    ∀ (S : List StatusInterval) (c : ℚ),
      (∀ s ∈ S, c ≤ s.1) →
      S.Pairwise (fun A B => A.2.1 ≤ B.1) →
      (∀ s ∈ S, s.1 ≤ s.2.1) →
      (S.map (fun s => TimeInterval.overlap_seconds ⟨s.1, s.2.1⟩ b)).sum ≤
        max 0 (b.stop - max b.start c) := by
  intro S
  induction S with
  | nil =>
    intro c _ _ _
    simp only [List.map_nil, List.sum_nil]
    exact le_max_left _ _
  | cons s S' ih =>
    intro c hc hp hv
    have hrec := ih s.2.1 (fun t ht => List.rel_of_pairwise_cons hp ht)
      hp.of_cons (fun t ht => hv t (List.mem_cons_of_mem _ ht))
    simp only [List.map_cons, List.sum_cons]
    have hcs : c ≤ s.1 := hc s (by simp)
    have hsv : s.1 ≤ s.2.1 := hv s (by simp)
    set tailSum :=
      (S'.map (fun t => TimeInterval.overlap_seconds ⟨t.1, t.2.1⟩ b)).sum
    show TimeInterval.overlap_seconds ⟨s.1, s.2.1⟩ b + tailSum ≤
      max 0 (b.stop - max b.start c)
    unfold TimeInterval.overlap_seconds
    simp only [max_def, min_def] at hrec ⊢
    split_ifs at hrec ⊢ <;> linarith

/-- `contrib` written as nested conditionals. -/
theorem contrib_eq (s : StatusInterval) (b : TimeInterval) :
    contrib s b =
      if TimeInterval.overlap_seconds ⟨s.1, s.2.1⟩ b ≤ 0 then 0
      else if str_lower s.2.2 = "active" then
        TimeInterval.overlap_seconds ⟨s.1, s.2.1⟩ b
      else 0 := rfl

/-- Each uptime addend is non-negative. -/
theorem contrib_nonneg (s : StatusInterval) (b : TimeInterval) :
    0 ≤ contrib s b := by
  rw [contrib_eq]
  split_ifs with h1 h2 <;> linarith

/-- Each uptime addend is at most the raw overlap. -/
theorem contrib_le_overlap (s : StatusInterval) (b : TimeInterval) :
    contrib s b ≤ TimeInterval.overlap_seconds ⟨s.1, s.2.1⟩ b := by
  have hov : 0 ≤ TimeInterval.overlap_seconds ⟨s.1, s.2.1⟩ b :=
    le_max_left _ _
  rw [contrib_eq]
  split_ifs with h1 h2 <;> linarith

/-- The accumulated uptime is non-negative. -/
theorem uptimeSeconds_nonneg (S : List StatusInterval)
    (biz : List TimeInterval) : 0 ≤ uptimeSeconds S biz := by
  unfold uptimeSeconds
  refine List.sum_nonneg ?_
  intro x hx
  rcases List.mem_map.mp hx with ⟨bv, _, rfl⟩
  refine List.sum_nonneg ?_
  intro y hy
  rcases List.mem_map.mp hy with ⟨s, _, rfl⟩
  exact contrib_nonneg s bv

/-- Over chained well-formed status intervals, accumulated uptime never
exceeds the total business duration. -/
theorem uptimeSeconds_le_total (S : List StatusInterval)
    (biz : List TimeInterval)
    (hp : S.Pairwise (fun A B => A.2.1 ≤ B.1))
    (hv : ∀ s ∈ S, s.1 ≤ s.2.1)
    (hb : ∀ bv ∈ biz, bv.start ≤ bv.stop) :
    uptimeSeconds S biz ≤ (biz.map TimeInterval.duration).sum := by
  unfold uptimeSeconds
  refine List.sum_le_sum ?_
  intro bv hbv
  have hbvv := hb bv hbv
  have h1 : (S.map (fun s => contrib s bv)).sum ≤
      (S.map (fun s => TimeInterval.overlap_seconds ⟨s.1, s.2.1⟩ bv)).sum :=
    List.sum_le_sum (fun s _ => contrib_le_overlap s bv)
  cases S with
  | nil =>
    simp only [List.map_nil, List.sum_nil]
    unfold TimeInterval.duration
    linarith
  | cons s0 S' =>
    have hstarts : ∀ s ∈ s0 :: S', s0.1 ≤ s.1 := by
      intro t ht
      rcases List.mem_cons.mp ht with heq | hmem
      · rw [heq]
      · exact le_trans (hv s0 (by simp)) (List.rel_of_pairwise_cons hp hmem)
    have h2 := overlap_sum_le bv (s0 :: S') s0.1 hstarts hp hv
    have h3 : max 0 (bv.stop - max bv.start s0.1) ≤ bv.stop - bv.start := by
      refine max_le (by linarith) ?_
      have := le_max_left bv.start s0.1
      linarith
    unfold TimeInterval.duration
    calc ((s0 :: S').map (fun s => contrib s bv)).sum
        ≤ ((s0 :: S').map
            (fun s => TimeInterval.overlap_seconds ⟨s.1, s.2.1⟩ bv)).sum := h1
      _ ≤ max 0 (bv.stop - max bv.start s0.1) := h2
      _ ≤ bv.stop - bv.start := h3

/-- Claim C2: for every store and window, the computed pair satisfies
`uptime ≥ 0`, `downtime ≥ 0`, and `uptime + downtime` equals the total
duration of the business intervals intersected with the window (exact,
hence within any tolerance). -/
theorem C2_uptime_downtime_identity (polls : List (ℚ × String))
    (ws we M : ℚ) (biz : List TimeInterval) (hM : 0 ≤ M)
    (hsort : polls.Chain' (fun a b => a.1 ≤ b.1))
    (hbiz : ∀ bv ∈ biz, bv.start ≤ bv.stop) :
    0 ≤ (compute_window (build_status_intervals_for_window polls ws we M) biz).1 ∧
    0 ≤ (compute_window (build_status_intervals_for_window polls ws we M) biz).2 ∧
    (compute_window (build_status_intervals_for_window polls ws we M) biz).1 +
      (compute_window (build_status_intervals_for_window polls ws we M) biz).2 =
      (biz.map TimeInterval.duration).sum := by
  have hgood := build_good polls ws we M hM hsort
  have htotal : 0 ≤ (biz.map TimeInterval.duration).sum := by
    refine List.sum_nonneg ?_
    intro x hx
    rcases List.mem_map.mp hx with ⟨bv, hbv, rfl⟩
    have := hbiz bv hbv
    unfold TimeInterval.duration
    linarith
  unfold compute_window
  by_cases h1 : (biz.map TimeInterval.duration).sum ≤ 0
  · have h0 : (biz.map TimeInterval.duration).sum = 0 := le_antisymm h1 htotal
    simp [h1, h0]
  · by_cases h2 : build_status_intervals_for_window polls ws we M = []
    · simp only [if_neg h1, if_pos h2]
      refine ⟨le_refl _, by linarith, by ring⟩
    · simp only [if_neg h1, if_neg h2]
      have hu0 : 0 ≤ uptimeSeconds
          (build_status_intervals_for_window polls ws we M) biz :=
        uptimeSeconds_nonneg _ _
      have hut : uptimeSeconds
          (build_status_intervals_for_window polls ws we M) biz ≤
          (biz.map TimeInterval.duration).sum :=
        uptimeSeconds_le_total _ _ hgood.2 hgood.1 hbiz
      rw [max_eq_right hu0, max_eq_right (by linarith)]
      exact ⟨hu0, by linarith, by ring⟩

/-- Witness for C2 at concrete sorted polls and one business
interval. -/
theorem C2_uptime_downtime_identity_witness :
    0 ≤ (compute_window
      (build_status_intervals_for_window [(0, "active"), (10, "inactive")]
        0 20 12) [⟨0, 5⟩]).1 ∧
    0 ≤ (compute_window
      (build_status_intervals_for_window [(0, "active"), (10, "inactive")]
        0 20 12) [⟨0, 5⟩]).2 ∧
    (compute_window
      (build_status_intervals_for_window [(0, "active"), (10, "inactive")]
        0 20 12) [⟨0, 5⟩]).1 +
      (compute_window
        (build_status_intervals_for_window [(0, "active"), (10, "inactive")]
          0 20 12) [⟨0, 5⟩]).2 =
      (([⟨0, 5⟩] : List TimeInterval).map TimeInterval.duration).sum :=
  C2_uptime_downtime_identity [(0, "active"), (10, "inactive")] 0 20 12
    [⟨0, 5⟩] (by norm_num) (by norm_num [List.chain'_cons]) (by decide)

end StoreMonitoring
